import Mathlib

/-!
Verification of the CloudForge static-site build pipeline
(src/libs/CloudForge.js): the template resolution and composition engine
(compileHtml and its recursive walk), the component loader (getComponent),
the build orchestrator (build) and the deploy and develop entry points,
modelled shallowly in Lean.

Modelling conventions.

* Paths are lists of slash-separated segments: the JavaScript code works on
  normalized slash-separated strings, and its idiom
  key.split("/"); key.pop(); key.join("/") is List.dropLast here.
* Template sources are kept in tokenized form: doT is an external engine,
  configured (lines 25-32) with the angle-brace delimiter pair, so a
  template is a sequence of literal chunks and interpolation tags.  The
  interpolation forms the claims exercise are it.NAME and
  it.getComponent(PATH); rendering any other value interpolates the way
  JavaScript string coercion does.
* JSON.parse is an external primitive; it is passed in as an oracle of type
  String to Except String fields, exactly as the code hands it the raw file
  contents and nothing else.
* Filesystem writes are collected as an ordered list of (path, contents)
  pairs; fallible steps return Except, mirroring the try/reject wrapper of
  compileHtml (lines 192-201).
-/

deriving instance DecidableEq for Except

/-- A filesystem path, as the list of its slash-separated segments. -/
abbrev FPath : Type := List String

/-- A value stored in a template render context: a string, a parsed JSON
object (such as the metadata record), or the getComponent function value. -/
inductive Value where
  | vstr (s : String)
  | vobj (fields : List (String × Value))
  | vloader

/-- A render context, the data bag handed to a compiled template.  Lookup
scans left to right, first match wins. -/
abbrev Ctx : Type := List (String × Value)

/-- Property lookup on a context object. -/
def ctxGet : Ctx → String → Option Value
  | [], _ => none
  | (k', v) :: rest, k => if k' = k then some v else ctxGet rest k

/-- Object.assign(target, extra): every key of extra overrides the same key
of target.  With first-match lookup this is extra prepended to target. -/
def objAssign (target extra : Ctx) : Ctx := extra ++ target

/-- An interpolated expression occurring in a template tag: a context
property read (it.NAME) or a component invocation
(it.getComponent(PATH)). -/
inductive TExpr where
  | varE (name : String)
  | getComponentE (p : FPath)

/-- A tokenized template source: literal text chunks interleaved with
interpolation tags. -/
inductive Tmpl where
  | nil
  | text (s : String) (rest : Tmpl)
  | interp (e : TExpr) (rest : Tmpl)

/-- Render a path back to its string form. -/
def pathStr (p : FPath) : String := String.intercalate "/" p

/-- The source text denoted by an interpolation tag, with the configured
angle-brace delimiters of lines 25-32. -/
def exprText : TExpr → String
  | .varE n => "<\x7b=it." ++ n ++ "\x7d>"
  | .getComponentE p => "<\x7b=it.getComponent('" ++ pathStr p ++ "')\x7d>"

/-- The source text a tokenized template denotes. -/
def srcText : Tmpl → String
  | .nil => ""
  | .text s rest => s ++ srcText rest
  | .interp e rest => exprText e ++ srcText rest

/-- True when the template source holds no template syntax at all: it is a
sequence of literal chunks with no delimiter tags. -/
def isPlain : Tmpl → Bool
  | .nil => true
  | .text _ rest => isPlain rest
  | .interp _ _ => false

/-- JavaScript string coercion of an interpolated value: an absent property
prints as undefined, an object as its default coercion, a function as its
source form. -/
def display : Option Value → String
  | none => "undefined"
  | some (.vstr s) => s
  | some (.vobj _) => "[object Object]"
  | some .vloader => "function getComponent(path, object)"

/-- An error surfaced through the reject branch of compileHtml, the thrown
exceptions of the recursive walk. -/
inductive Err where
  /-- TypeError: parentTemplate is not a function (calling the null layout
  at line 176). -/
  | layoutMissing
  /-- The exception thrown by JSON.parse at line 168; the message is
  whatever the parser produced from the file contents. -/
  | metadataParse (msg : String)
  /-- readFileSync failure inside getComponent (line 480). -/
  | componentMissing (p : FPath)
  /-- TypeError: it.NAME is not a function. -/
  | notAFunction (name : String)
  /-- Call stack exhaustion on unbounded component recursion. -/
  | stackOverflow
deriving DecidableEq

/-- The context getComponent (line 484) builds for the fragment it renders:
Object.assign(object, getComponent), so the loader itself is a member of
every context it builds. -/
def componentContext (obj : Ctx) : Ctx :=
  objAssign obj [("getComponent", Value.vloader)]

/-- Model of a compiled doT render function applied to a context, with the
component-loading capability abstracted out: literal chunks pass through
verbatim, it.NAME tags interpolate the coerced context property,
it.getComponent tags invoke the loader the context's getComponent member
stands for. -/
def renderStep (comp : FPath → Except Err String) : Ctx → Tmpl → Except Err String
  | _, .nil => .ok ""
  | ctx, .text s rest =>
    match renderStep comp ctx rest with
    | .error e => .error e
    | .ok out => .ok (s ++ out)
  | ctx, .interp (.varE n) rest =>
    match renderStep comp ctx rest with
    | .error e => .error e
    | .ok out => .ok (display (ctxGet ctx n) ++ out)
  | ctx, .interp (.getComponentE p) rest =>
    match ctxGet ctx "getComponent" with
    | some .vloader =>
      match comp p with
      | .error e => .error e
      | .ok s =>
        match renderStep comp ctx rest with
        | .error e => .error e
        | .ok out => .ok (s ++ out)
    | _ => .error (.notAFunction "getComponent")

/-- getComponent (CloudForge.js lines 479-485): read and compile the
template at the given path, then render it with the caller-supplied object
extended with getComponent itself.  Each nested invocation consumes fuel,
the model of the JavaScript call stack. -/
def getComponent (fs : FPath → Option Tmpl) : Nat → FPath → Ctx → Except Err String
  | 0, _, _ => .error .stackOverflow
  | fuel + 1, p, obj =>
    match fs p with
    | none => .error (.componentMissing p)
    | some t => renderStep (fun q => getComponent fs fuel q []) (componentContext obj) t

/-- A full template render: component tags invoke getComponent at the
current stack depth. -/
def renderT (fs : FPath → Option Tmpl) (fuel : Nat) (ctx : Ctx) (t : Tmpl) :
    Except Err String :=
  renderStep (fun q => getComponent fs fuel q []) ctx t

/-- The suffix of a name from its last dot on, ignoring a dot in the very
first position (the behavior of path.extname used by directory-tree for the
extension field checked at lines 165 and 181). -/
def extSuffix : List Char → Option (List Char)
  | [] => none
  | c :: rest =>
    match extSuffix rest with
    | some s => some s
    | none => if c = '.' then some (c :: rest) else none

/-- path.extname on a file name. -/
def extname (n : String) : String :=
  match n.toList with
  | [] => ""
  | _ :: rest =>
    match extSuffix rest with
    | some s => String.mk s
    | none => ""

/-- A node of the source tree handed back by directory-tree: a file with
its tokenized contents, or a directory with its children. -/
inductive Entry where
  | file (name : String) (content : Tmpl)
  | dir (name : String) (children : List Entry)

/-- The name of an entry. -/
def entryName : Entry → String
  | .file n _ => n
  | .dir n _ => n

/-- Names of the entries of a directory listing. -/
def namesOf : List Entry → List String
  | [] => []
  | e :: rest => entryName e :: namesOf rest

mutual

/-- Well-formedness of one entry: its subtree, if any, is well-formed. -/
def nodupEntry : Entry → Bool
  | .file _ _ => true
  | .dir _ cs => nodupTree cs

/-- Every directory of the tree lists pairwise distinct names, the
invariant a real filesystem guarantees for a directory listing. -/
def nodupTree : List Entry → Bool
  | [] => true
  | c :: rest => !(namesOf rest).contains (entryName c) && nodupEntry c && nodupTree rest

end

/-- The reserved layout filename (line 139). -/
def layoutFileName : String := "template.html.dot"

/-- The sidecar metadata filename (line 167). -/
def metadataFileName : String := "metadata.json"

/-- The layout-template file found among a directory's direct children, if
any (the forEach of lines 138-142; a directory listing holds at most one
entry of a given name). -/
def findLayout : List Entry → Option Tmpl
  | [] => none
  | .file n t :: rest => if n = layoutFileName then some t else findLayout rest
  | .dir _ _ :: rest => findLayout rest

/-- The raw text of the sidecar metadata file among a directory's direct
children, if present (the existsSync/readFileSync of lines 167-168). -/
def findMetadata : List Entry → Option String
  | [] => none
  | .file n t :: rest => if n = metadataFileName then some (srcText t) else findMetadata rest
  | .dir _ _ :: rest => findMetadata rest

/-- The layout registry: directory path keyed compiled layout templates
(the templates object of line 132), first match wins on lookup. -/
abbrev Registry : Type := List (FPath × Tmpl)

/-- Lookup in the layout registry. -/
def regLookup : Registry → FPath → Option Tmpl
  | [], _ => none
  | (k, t) :: rest, q => if k = q then some t else regLookup rest q

/-- Register the current directory's layout template, if it has one
(lines 138-142). -/
def registerLayouts (key : FPath) (children : List Entry) (reg : Registry) : Registry :=
  match findLayout children with
  | some t => (key, t) :: reg
  | none => reg

/-- The parent-template selection loop of lines 144-157, on the reversed
path (popping the last segment of the path is taking the tail of its
reversal): look the registry up at the directory's own path, then
repeatedly strip the last path segment, stopping with null once the key
is exhausted. -/
def selectRev (reg : Registry) : FPath → Option Tmpl
  | [] => none
  | a :: as =>
    match regLookup reg (a :: as).reverse with
    | some t => some t
    | none => selectRev reg as

/-- The parent-template selection loop of lines 144-157. -/
def selectTemplate (reg : Registry) (p : FPath) : Option Tmpl :=
  selectRev reg p.reverse

/-- The html section of the constructor options (lines 53-59). -/
structure HtmlConfig where
  sourceDirectory : FPath
  buildDirectory : FPath
  copyFilesWithExtensions : Option (List String)
  templateDependencies : Ctx

/-- Everything a compileHtml run reads beside the source tree: the
filesystem seen by getComponent, the JSON.parse oracle, the call-stack
fuel and the html configuration. -/
structure Env where
  fs : FPath → Option Tmpl
  pj : String → Except String (List (String × Value))
  fuel : Nat
  cfg : HtmlConfig

/-- Metadata loading for one directory (lines 167-168): an absent sidecar
file yields the empty record, a present one is fed to JSON.parse, whose
exception aborts the walk. -/
def loadMetadata (pj : String → Except String (List (String × Value)))
    (sibs : List Entry) : Except Err Value :=
  match findMetadata sibs with
  | none => .ok (.vobj [])
  | some s =>
    match pj s with
    | .ok fields => .ok (.vobj fields)
    | .error m => .error (.metadataParse m)

/-- The base render context of lines 169-172:
Object.assign(metadata and getComponent, templateDependencies). -/
def baseContext (deps : Ctx) (md : Value) : Ctx :=
  objAssign [("metadata", md), ("getComponent", Value.vloader)] deps

/-- The layout render context of lines 176-178:
Object.assign(content is the rendered output, the merged dependencies). -/
def layoutContext (base : Ctx) (contentOut : String) : Ctx :=
  objAssign [("content", Value.vstr contentOut)] base

/-- Compilation of one content file (lines 165-178): parse the sidecar
metadata, render the file's own template with the base context, then call
the selected parent template on the base context extended with the content
field; a null parent template raises the TypeError of line 176. -/
def compilePage (E : Env) (rel : FPath) (sibs : List Entry) (layout? : Option Tmpl)
    (name : String) (t : Tmpl) : Except Err (FPath × String) :=
  match loadMetadata E.pj sibs with
  | .error e => .error e
  | .ok md =>
    match renderT E.fs E.fuel (baseContext E.cfg.templateDependencies md) t with
    | .error e => .error e
    | .ok co =>
      match layout? with
      | none => .error .layoutMissing
      | some l =>
        match renderT E.fs E.fuel (layoutContext (baseContext E.cfg.templateDependencies md) co) l with
        | .error e => .error e
        | .ok out => .ok (E.cfg.buildDirectory ++ rel ++ [name], out)

/-- Processing of one file child (lines 164-184): content files (extension
.html) are compiled into the mirrored build path, and files whose extension
is listed in copyFilesWithExtensions are copied verbatim (both can fire for
one file, in that order). -/
def processFile (E : Env) (rel : FPath) (sibs : List Entry) (layout? : Option Tmpl)
    (name : String) (t : Tmpl) : Except Err (List (FPath × String)) :=
  match (if extname name = ".html"
         then (compilePage E rel sibs layout? name t).map (fun w => [w])
         else .ok []) with
  | .error e => .error e
  | .ok ws =>
    .ok (ws ++ (match E.cfg.copyFilesWithExtensions with
      | some exts =>
        if exts.contains (extname name)
        then [(E.cfg.buildDirectory ++ rel ++ [name], srcText t)]
        else []
      | none => []))

mutual

/-- Processing of one child of the directory at rel (one step of the
forEach of lines 160-188): a file child is compiled and copied by
processFile, a directory child is entered by the recursive walk of lines
134-189 — register its layout if present, select its parent template by
the nearest-ancestor loop, then process its children in listing order. -/
def walkEntry (E : Env) (rel : FPath) (sibs : List Entry) (layout? : Option Tmpl) :
    Entry → Registry → Except Err (Registry × List (FPath × String))
  | .file name t, reg =>
    match processFile E rel sibs layout? name t with
    | .error e => .error e
    | .ok ws => .ok (reg, ws)
  | .dir name cs, reg =>
    walkChildren E (rel ++ [name]) cs
      (selectTemplate (registerLayouts (E.cfg.sourceDirectory ++ (rel ++ [name])) cs reg)
        (E.cfg.sourceDirectory ++ (rel ++ [name])))
      cs
      (registerLayouts (E.cfg.sourceDirectory ++ (rel ++ [name])) cs reg)
      []

/-- The forEach of lines 160-188 over the remaining children of a
directory, threading the registry and accumulating writes in order. -/
def walkChildren (E : Env) (rel : FPath) (sibs : List Entry) (layout? : Option Tmpl) :
    List Entry → Registry → List (FPath × String) →
    Except Err (Registry × List (FPath × String))
  | [], reg, acc => .ok (reg, acc)
  | c :: rest, reg, acc =>
    match walkEntry E rel sibs layout? c reg with
    | .error e => .error e
    | .ok (reg', ws) => walkChildren E rel sibs layout? rest reg' (acc ++ ws)

end

/-- The recursive walk of lines 134-189 entering the directory at rel with
the given children and registry. -/
def recurseDir (E : Env) (rel : FPath) (children : List Entry) (reg : Registry) :
    Except Err (Registry × List (FPath × String)) :=
  walkChildren E rel children
    (selectTemplate (registerLayouts (E.cfg.sourceDirectory ++ rel) children reg)
      (E.cfg.sourceDirectory ++ rel))
    children
    (registerLayouts (E.cfg.sourceDirectory ++ rel) children reg)
    []

/-- compileHtml (lines 125-205): walk the tree rooted at the configured
source directory with a fresh registry, producing the ordered list of
build writes, or the first thrown error (which rejects the whole build). -/
def compileHtml (E : Env) (root : List Entry) : Except Err (List (FPath × String)) :=
  match recurseDir E [] root [] with
  | .error e => .error e
  | .ok (_, ws) => .ok ws

/-- True when the walk's result is the rejected promise of lines 192-201. -/
def isErr {α : Type} : Except Err α → Bool
  | .error _ => true
  | .ok _ => false

/-- Boolean prefix test on paths. -/
def isPfx : FPath → FPath → Bool
  | [], _ => true
  | _ :: _, [] => false
  | a :: as, b :: bs => if a = b then isPfx as bs else false

/-- The first directory child of the given name. -/
def findDirE : List Entry → String → Option (List Entry)
  | [], _ => none
  | .file _ _ :: rest, s => findDirE rest s
  | .dir n cs :: rest, s => if n = s then some cs else findDirE rest s

/-- Names of the directory children of a listing. -/
def dirNames : List Entry → List String
  | [] => []
  | .file _ _ :: rest => dirNames rest
  | .dir n _ :: rest => n :: dirNames rest

/-- The children of the directory reached from the root listing by the
given relative path, if it exists. -/
def treeAt (root : List Entry) : FPath → Option (List Entry)
  | [] => some root
  | s :: r =>
    match findDirE root s with
    | some cs => treeAt cs r
    | none => none

/-- The layout template registered at a relative directory of the tree:
the template.html.dot file among that directory's direct children. -/
def layoutAtRel (root : List Entry) (r : FPath) : Option Tmpl :=
  match treeAt root r with
  | some cs => findLayout cs
  | none => none

/-- The specification's nearest-ancestor search, on the reversed relative
path: try the directory itself, then strip the last segment per step, up
to and including the source root. -/
def specNearRev (root : List Entry) : FPath → Option Tmpl
  | [] => layoutAtRel root []
  | a :: as =>
    match layoutAtRel root (a :: as).reverse with
    | some t => some t
    | none => specNearRev root as

/-- The specification's resolved layout: the layout registered at the
nearest directory equal to or ancestor-of the given directory, one path
segment stripped per step, up to the source root. -/
def specNearest (root : List Entry) (rel : FPath) : Option Tmpl :=
  specNearRev root rel.reverse

mutual

/-- Reference processing of one child: identical per-file processing, but
a directory child's layout is the declarative nearest-ancestor layout of
the full tree rather than a lookup in the incrementally built registry. -/
def specEntry (E : Env) (root : List Entry) (rel : FPath) (sibs : List Entry)
    (layout? : Option Tmpl) : Entry → Except Err (List (FPath × String))
  | .file name t => processFile E rel sibs layout? name t
  | .dir name cs =>
    specWalk E root (rel ++ [name]) cs (specNearest root (rel ++ [name])) cs []

/-- Reference walk over the remaining children of a directory. -/
def specWalk (E : Env) (root : List Entry) (rel : FPath) (sibs : List Entry)
    (layout? : Option Tmpl) : List Entry → List (FPath × String) →
    Except Err (List (FPath × String))
  | [], acc => .ok acc
  | c :: rest, acc =>
    match specEntry E root rel sibs layout? c with
    | .error e => .error e
    | .ok ws => specWalk E root rel sibs layout? rest (acc ++ ws)

end

/-- Reference walk entering the directory at rel. -/
def specDir (E : Env) (root : List Entry) (rel : FPath) (children : List Entry) :
    Except Err (List (FPath × String)) :=
  specWalk E root rel children (specNearest root rel) children []

/-- Reference compileHtml, driven entirely by the declarative
nearest-ancestor layout resolution. -/
def specCompileHtml (E : Env) (root : List Entry) : Except Err (List (FPath × String)) :=
  specDir E root [] root

mutual

/-- The relative directories of the content files (extension .html) inside
one entry. -/
def contentDirsE (rel : FPath) : Entry → List FPath
  | .file n _ => if extname n = ".html" then [rel] else []
  | .dir n cs => contentDirsL (rel ++ [n]) cs

/-- The relative directories of all content files of the tree, one
occurrence per content file, in walk order. -/
def contentDirsL (rel : FPath) : List Entry → List FPath
  | [] => []
  | c :: rest => contentDirsE rel c ++ contentDirsL rel rest

end

/-- Character-list prefix test. -/
def startsW : List Char → List Char → Bool
  | [], _ => true
  | _ :: _, [] => false
  | a :: as, b :: bs => if a = b then startsW as bs else false

/-- Substring occurrence on character lists. -/
def occursChars (needle : List Char) : List Char → Bool
  | [] => startsW needle []
  | c :: t => startsW needle (c :: t) || occursChars needle t

/-- Substring occurrence on strings: does the needle occur in the hay. -/
def strOccurs (needle hay : String) : Bool := occursChars needle.toList hay.toList

/-
The orchestrator (build, deploy, develop).  The external collaborators of
build — rimraf in clean (lines 98-112), node-sass in compileSass (lines
218-266) and ncp/replace in copyDependencies (lines 279-315) — are modelled
as succeeding: only their has-this-section-been-set guards and the
sequencing of build (lines 84-96) are in scope for the claims.
-/

/-- The server section of the constructor options (lines 47-52). -/
structure ServerConfig where
  directory : FPath
  browser : String
  port : Nat

/-- The sass section of the constructor options (lines 60-65). -/
structure SassConfig where
  sourceDirectory : FPath
  buildDirectory : FPath
  includeSourceMap : Bool
  outputStyle : String

/-- The CloudForge constructor options (lines 40-68).  Joi allows each aws
credential to be an empty string or absent; both are falsy at the guard of
line 333. -/
structure Config where
  awsAccessKeyId : Option String
  awsSecretAccessKey : Option String
  awsRegion : Option String
  awsS3Bucket : Option String
  awsCloudFrontDistributionId : Option String
  deployDirectory : Option FPath
  server : Option ServerConfig
  html : Option HtmlConfig
  sass : Option SassConfig
  cleanIgnoreDirectories : Option (List FPath)
  dependencies : Option (List (FPath × FPath × Option (List (String × String))))

/-- JavaScript falsiness of an optional string option: absent or empty. -/
def falsy : Option String → Bool
  | none => true
  | some s => s = ""

/-- The rejection message of compileHtml's guard (line 129). -/
def htmlNotSetMsg : String :=
  "Could not compile HTML! The html property has not been set!"

/-- The rejection message of compileSass's guard (line 222). -/
def sassNotSetMsg : String :=
  "Could not compile Sass! The sass property has not been set!"

/-- The rejection message of copyDependencies' guard (line 283). -/
def depsNotSetMsg : String :=
  "Could not copy dependencies! The dependencies property has not been set!"

/-- The rejection message of deploy's guard (line 334). -/
def deployNotSetMsg : String :=
  "Could not deploy! The awsAccessKeyId, awsSecretAccessKey, awsRegion or awsS3Bucket has not been set!"

/-- The rejection message of develop's guard (line 409). -/
def developNotSetMsg : String :=
  "Could not serve! The develop or html property has not been set!"

/-- An error rejecting a build: a stage's missing-section guard message, or
an exception thrown inside the HTML compilation. -/
inductive BuildErr where
  | configMsg (msg : String)
  | htmlErr (e : Err)
deriving DecidableEq

/-- build (lines 84-96): clean, then compileHtml, then compileSass, then
copyDependencies, each stage awaited before the next; a stage whose
configuration section is unset rejects with its guard message. -/
def buildRun (fs : FPath → Option Tmpl) (pj : String → Except String (List (String × Value)))
    (fuel : Nat) (cfg : Config) (root : List Entry) : Except BuildErr Unit :=
  match cfg.html with
  | none => .error (.configMsg htmlNotSetMsg)
  | some h =>
    match compileHtml ⟨fs, pj, fuel, h⟩ root with
    | .error e => .error (.htmlErr e)
    | .ok _ =>
      match cfg.sass with
      | none => .error (.configMsg sassNotSetMsg)
      | some _ =>
        match cfg.dependencies with
        | none => .error (.configMsg depsNotSetMsg)
        | some _ => .ok ()

/-- The guard message of the first unset section, in stage order. -/
def firstUnsetMsg (cfg : Config) : String :=
  if cfg.html.isNone then htmlNotSetMsg
  else if cfg.sass.isNone then sassNotSetMsg
  else depsNotSetMsg

/-- What a caller receives back from deploy() or develop(): a promise that
rejects with a guard message, or undefined — the JavaScript value a
function body returns when it falls off its end. -/
inductive AsyncReturn where
  | rejected (msg : String)
  | jsUndefined
deriving DecidableEq

/-- deploy (lines 330-391): the guard of line 333 returns a rejected
promise, but the build-and-upload chain of lines 337-390 is started with
no return statement in front of it, so on that path the function returns
undefined and the chain's outcome is detached from the caller. -/
def deploy (cfg : Config) : AsyncReturn :=
  if falsy cfg.awsAccessKeyId || falsy cfg.awsSecretAccessKey
     || falsy cfg.awsRegion || falsy cfg.awsS3Bucket
  then .rejected deployNotSetMsg
  else .jsUndefined

/-- develop (lines 405-446): the guard of line 408 returns a rejected
promise, but the build-and-serve chain of line 412 onward is likewise not
returned, so on that path develop returns undefined. -/
def develop (cfg : Config) : AsyncReturn :=
  if cfg.server.isNone || cfg.html.isNone
  then .rejected developNotSetMsg
  else .jsUndefined

/-
Concrete instances used by the closed statements below.
-/

/-- A layout template of the canonical shape: literal text around a single
content interpolation slot. -/
def slotLayout (a b : String) : Tmpl :=
  .text a (.interp (.varE "content") (.text b .nil))

/-- An empty component filesystem. -/
def emptyFs : FPath → Option Tmpl := fun _ => none

/-- Model of JSON.parse on inputs that are not valid JSON: the thrown
SyntaxError message is built from the scanned text alone (JSON.parse never
receives a file path). -/
def parseFailOracle : String → Except String (List (String × Value)) :=
  fun _ => .error "Unexpected token o in JSON at position 1"

/-- A three-level component chain: c1 embeds c2, c2 embeds c3. -/
def compFs : FPath → Option Tmpl := fun p =>
  if p = ["components", "c1.html"] then
    some (.text "1[" (.interp (.getComponentE ["components", "c2.html"]) (.text "]1" .nil)))
  else if p = ["components", "c2.html"] then
    some (.text "2[" (.interp (.getComponentE ["components", "c3.html"]) (.text "]2" .nil)))
  else if p = ["components", "c3.html"] then
    some (.text "3" .nil)
  else none

/-- An environment with no components, a failing parse oracle (never
consulted unless a sidecar file exists) and plain configuration. -/
def envPlain : Env := ⟨emptyFs, parseFailOracle, 5, ⟨["s"], ["b"], none, []⟩⟩

/-- An environment whose caller-supplied templateDependencies carry a
content key. -/
def envHijack : Env := ⟨emptyFs, parseFailOracle, 5, ⟨["s"], ["b"], none, [("content", Value.vstr "HIJACK")]⟩⟩

/-- A tree with a root layout, a root content file, and a deeper layout
override at directory a covering the content file at a/b. -/
def treeNested : List Entry :=
  [.file "template.html.dot" (slotLayout "R(" ")"),
   .file "index.html" (.text "Hello" .nil),
   .dir "a" [.file "template.html.dot" (slotLayout "A(" ")"),
             .dir "b" [.file "index.html" (.text "World" .nil)]]]

/-- A tree holding a content file but no layout-template file anywhere. -/
def treeNoLayout : List Entry :=
  [.dir "x" [.file "index.html" (.text "Hi" .nil)]]

/-- A tree whose directory mydir carries an unparsable metadata.json next
to a content file. -/
def treeBadMeta : List Entry :=
  [.file "template.html.dot" (slotLayout "R(" ")"),
   .dir "mydir" [.file "index.html" (.text "Hi" .nil),
                 .file "metadata.json" (.text "oops" .nil)]]

/-- A root layout around a plain content file. -/
def treePlain : List Entry :=
  [.file "template.html.dot" (slotLayout "A(" ")B"),
   .file "index.html" (.text "Hello" .nil)]

/-- A configuration with all four aws credentials set but no html section:
its build rejects at the compileHtml guard. -/
def cfgDeployReady : Config :=
  ⟨some "key", some "secret", some "us-east-1", some "bucket", none,
   some ["build"], none, none, some ⟨["sass"], ["css"], false, "nested"⟩, none, some []⟩

/-- A configuration with server and html sections set but no sass section:
its build completes HTML compilation on an empty tree, then rejects at the
compileSass guard. -/
def cfgDevelopReady : Config :=
  ⟨none, none, none, none, none, none,
   some ⟨["build"], "Google Chrome", 8282⟩,
   some ⟨["s"], ["b"], none, []⟩, none, none, some []⟩

/-- cfgDevelopReady with the sass section also set, used by the build
sequencing witness. -/
def cfgNoDeps : Config :=
  ⟨none, none, none, none, none, none, none,
   some ⟨["s"], ["b"], none, []⟩, some ⟨["sass"], ["css"], false, "nested"⟩, none, none⟩

/-
Helper lemmas.
-/

theorem ctxGet_append (a b : Ctx) (k : String) :
    ctxGet (a ++ b) k = match ctxGet a k with
      | some v => some v
      | none => ctxGet b k := by
  induction a with
  | nil => simp [ctxGet]
  | cons hd tl ih =>
    obtain ⟨k', v⟩ := hd
    by_cases h : k' = k <;> simp [ctxGet, h, ih]

theorem renderT_plain (fs : FPath → Option Tmpl) (fuel : Nat) (ctx : Ctx)
    (t : Tmpl) (hp : isPlain t = true) : renderT fs fuel ctx t = .ok (srcText t) := by
  induction t with
  | nil => simp [renderT, renderStep, srcText]
  | text s rest ih =>
    simp only [isPlain] at hp
    have := ih hp
    simp only [renderT] at this
    simp [renderT, renderStep, srcText, this]
  | interp e rest ih => simp [isPlain] at hp

/-- C6: the component loader exposes getComponent inside every context it
builds, including contexts built for nested component invocations, and a
three-level component chain renders with each level's output concatenated
correctly. -/
theorem component_loader_reentrant :
    (∀ obj : Ctx, ctxGet (componentContext obj) "getComponent" = some Value.vloader)
    ∧ getComponent compFs 10 ["components", "c1.html"] [] = .ok "1[2[3]2]1" := by
  constructor
  · intro obj
    simp [componentContext, objAssign, ctxGet]
  · decide

/-- C3 counterexample: when the caller-supplied templateDependencies carry
a content key, the base context handed to a content-template invocation
does hold a content field (lines 169-172 merge the dependencies over the
base with the dependencies winning), and the content template observes
it. -/
theorem content_field_present_counterexample :
    ctxGet (baseContext [("content", Value.vstr "HIJACK")] (Value.vobj [])) "content"
      = some (Value.vstr "HIJACK")
    ∧ renderT emptyFs 5 (baseContext [("content", Value.vstr "HIJACK")] (Value.vobj []))
        (.interp (.varE "content") .nil)
      = .ok "HIJACK" := by
  constructor
  · simp [baseContext, objAssign, ctxGet]
  · decide

/-- C3 (amended): provided the configured templateDependencies hold no
content key, the page compiler renders the content template with the base
context, in which the content field is absent, and then renders the layout
with the base context extended by content bound to the already-rendered
content output. -/
theorem page_render_order (E : Env) (rel : FPath) (sibs : List Entry)
    (name : String) (t l : Tmpl) (md : Value) (co out : String)
    (hdeps : ctxGet E.cfg.templateDependencies "content" = none)
    (hmd : loadMetadata E.pj sibs = .ok md)
    (hco : renderT E.fs E.fuel (baseContext E.cfg.templateDependencies md) t = .ok co)
    (hout : renderT E.fs E.fuel (layoutContext (baseContext E.cfg.templateDependencies md) co) l
      = .ok out) :
    compilePage E rel sibs (some l) name t
      = .ok (E.cfg.buildDirectory ++ rel ++ [name], out)
    ∧ ctxGet (baseContext E.cfg.templateDependencies md) "content" = none
    ∧ ctxGet (layoutContext (baseContext E.cfg.templateDependencies md) co) "content"
      = some (Value.vstr co) := by
  have hbase : ctxGet (baseContext E.cfg.templateDependencies md) "content" = none := by
    simp [baseContext, objAssign, ctxGet_append, hdeps, ctxGet]
  refine ⟨?_, hbase, ?_⟩
  · simp [compilePage, hmd, hco, hout]
  · simp [layoutContext, objAssign, ctxGet_append, hbase, ctxGet]

/-- Closed instance of page_render_order. -/
theorem page_render_order_witness :
    compilePage envPlain [] [] (some (slotLayout "A(" ")B")) "index.html" (.text "Hello" .nil)
      = .ok (["b", "index.html"], "A(" ++ ("Hello" ++ (")B" ++ "")))
    ∧ ctxGet (baseContext [] (Value.vobj [])) "content" = none
    ∧ ctxGet (layoutContext (baseContext [] (Value.vobj [])) "Hello") "content"
      = some (Value.vstr "Hello") := by
  have h := page_render_order envPlain [] [] "index.html" (.text "Hello" .nil)
    (slotLayout "A(" ")B") (Value.vobj []) "Hello" ("A(" ++ ("Hello" ++ (")B" ++ "")))
    (by simp [envPlain, ctxGet]) (by simp [loadMetadata, findMetadata, envPlain])
    (by decide) (by decide)
  simpa [envPlain] using h

/-- C9: when the caller-supplied templateDependencies hold a content key,
the layout context of lines 176-178 binds content to the caller-supplied
value rather than to the rendered content output, and a layout's content
slot renders that value. -/
theorem caller_content_overrides_layout_slot (deps : Ctx) (md : Value) (co : String)
    (v : Value) (h : ctxGet deps "content" = some v) :
    ctxGet (layoutContext (baseContext deps md) co) "content" = some v
    ∧ ∀ (s a b : String) (fs : FPath → Option Tmpl) (fuel : Nat), v = .vstr s →
        renderT fs fuel (layoutContext (baseContext deps md) co) (slotLayout a b)
          = .ok (a ++ (s ++ (b ++ ""))) := by
  have hctx : ctxGet (layoutContext (baseContext deps md) co) "content" = some v := by
    simp [layoutContext, baseContext, objAssign, ctxGet_append, h]
  refine ⟨hctx, ?_⟩
  intro s a b fs fuel hv
  subst hv
  simp [slotLayout, renderT, renderStep, hctx, display]

/-- Closed instance of caller_content_overrides_layout_slot: the rendered
content output Hello is discarded in favor of the caller value. -/
theorem caller_content_overrides_layout_slot_witness :
    ctxGet (layoutContext (baseContext [("content", Value.vstr "HIJACK")] (Value.vobj [])) "Hello")
        "content" = some (Value.vstr "HIJACK")
    ∧ renderT emptyFs 5
        (layoutContext (baseContext [("content", Value.vstr "HIJACK")] (Value.vobj [])) "Hello")
        (slotLayout "A(" ")B")
      = .ok ("A(" ++ ("HIJACK" ++ (")B" ++ ""))) := by
  have h := caller_content_overrides_layout_slot
    [("content", Value.vstr "HIJACK")] (Value.vobj []) "Hello" (Value.vstr "HIJACK")
    (by simp [ctxGet])
  exact ⟨h.1, h.2 "HIJACK" "A(" ")B" emptyFs 5 rfl⟩

/-- C5 (amended): a missing sidecar file yields the empty metadata record
and no error; a present but unparsable sidecar makes the compilation of
that directory's content files fail with the parse error, which is built
from the file contents alone and carries no path. -/
theorem metadata_loading_behavior
    (pj : String → Except String (List (String × Value))) (sibs : List Entry) :
    (findMetadata sibs = none → loadMetadata pj sibs = .ok (Value.vobj []))
    ∧ (∀ (s m : String) (E : Env) (rel : FPath) (layout? : Option Tmpl)
        (name : String) (t : Tmpl),
        E.pj = pj → findMetadata sibs = some s → pj s = .error m →
        compilePage E rel sibs layout? name t = .error (.metadataParse m)) := by
  constructor
  · intro h
    simp [loadMetadata, h]
  · intro s m E rel layout? name t hpj hs hm
    simp [compilePage, loadMetadata, hs, hpj, hm]

/-- Closed instance of metadata_loading_behavior, at a directory with no
sidecar file and at one whose sidecar does not parse. -/
theorem metadata_loading_behavior_witness :
    loadMetadata parseFailOracle [.file "index.html" (.text "Hi" .nil)] = .ok (Value.vobj [])
    ∧ compilePage envPlain ["mydir"]
        [.file "index.html" (.text "Hi" .nil), .file "metadata.json" (.text "oops" .nil)]
        (some (slotLayout "R(" ")")) "index.html" (.text "Hi" .nil)
      = .error (.metadataParse "Unexpected token o in JSON at position 1") := by
  constructor
  · exact (metadata_loading_behavior parseFailOracle
      [.file "index.html" (.text "Hi" .nil)]).1 (by decide)
  · exact (metadata_loading_behavior parseFailOracle
      [.file "index.html" (.text "Hi" .nil), .file "metadata.json" (.text "oops" .nil)]).2
      "oops" "Unexpected token o in JSON at position 1" envPlain ["mydir"]
      (some (slotLayout "R(" ")")) "index.html" (.text "Hi" .nil)
      rfl (by decide) rfl

/-- C5 counterexample: the whole build rejects on the unparsable sidecar
under src/mydir, but the surfaced error is the raw JSON.parse message,
which does not name the offending path: neither the directory name mydir
nor the sidecar filename occurs in it. -/
theorem metadata_error_lacks_path_counterexample :
    compileHtml envPlain treeBadMeta
      = .error (.metadataParse "Unexpected token o in JSON at position 1")
    ∧ strOccurs "mydir" "Unexpected token o in JSON at position 1" = false
    ∧ strOccurs "metadata.json" "Unexpected token o in JSON at position 1" = false := by
  refine ⟨by decide, by decide, by decide⟩

/-- C7 (amended): provided the configured templateDependencies hold no
content key, a content file whose source holds no template syntax renders
to its source text verbatim under any context and any fuel, and the build
output for it is the resolved layout's output with that text bound,
unchanged, at the layout's content slot. -/
theorem plain_file_roundtrip (E : Env) (rel : FPath) (sibs : List Entry)
    (name : String) (t : Tmpl) (a b : String) (md : Value)
    (hp : isPlain t = true)
    (hdeps : ctxGet E.cfg.templateDependencies "content" = none)
    (hmd : loadMetadata E.pj sibs = .ok md) :
    (∀ (fuel : Nat) (ctx : Ctx), renderT E.fs fuel ctx t = .ok (srcText t))
    ∧ ctxGet (layoutContext (baseContext E.cfg.templateDependencies md) (srcText t)) "content"
      = some (Value.vstr (srcText t))
    ∧ compilePage E rel sibs (some (slotLayout a b)) name t
      = .ok (E.cfg.buildDirectory ++ rel ++ [name], a ++ (srcText t ++ (b ++ ""))) := by
  have hbase : ctxGet (baseContext E.cfg.templateDependencies md) "content" = none := by
    simp [baseContext, objAssign, ctxGet_append, hdeps, ctxGet]
  have hctx : ctxGet (layoutContext (baseContext E.cfg.templateDependencies md) (srcText t))
      "content" = some (Value.vstr (srcText t)) := by
    simp [layoutContext, objAssign, ctxGet_append, hbase, ctxGet]
  refine ⟨fun fuel ctx => renderT_plain E.fs fuel ctx t hp, hctx, ?_⟩
  have hco := renderT_plain E.fs E.fuel (baseContext E.cfg.templateDependencies md) t hp
  simp only [renderT] at hco
  simp [compilePage, hmd, hco, slotLayout, renderT, renderStep, hctx, display]

/-- Closed instance of plain_file_roundtrip. -/
theorem plain_file_roundtrip_witness :
    (∀ ctx : Ctx, renderT envPlain.fs 5 ctx (.text "Hello" .nil) = .ok "Hello")
    ∧ compilePage envPlain [] [] (some (slotLayout "A(" ")B")) "index.html"
        (.text "Hello" .nil)
      = .ok (["b", "index.html"], "A(" ++ ("Hello" ++ (")B" ++ ""))) := by
  have h := plain_file_roundtrip envPlain [] [] "index.html" (.text "Hello" .nil)
    "A(" ")B" (Value.vobj []) (by decide) (by simp [envPlain, ctxGet]) rfl
  exact ⟨fun ctx => h.1 5 ctx, h.2.2⟩

/-- C7 counterexample: the content file index.html is plain text Hello,
yet with caller-supplied templateDependencies carrying a content key the
build output embeds the caller value, not the file's text: Hello occurs
nowhere in the output. -/
theorem plain_roundtrip_counterexample :
    isPlain (.text "Hello" .nil) = true
    ∧ srcText (.text "Hello" .nil) = "Hello"
    ∧ compileHtml envHijack treePlain = .ok [(["b", "index.html"], "A(HIJACK)B")]
    ∧ strOccurs "Hello" "A(HIJACK)B" = false := by
  exact ⟨by decide, by decide, by decide, by decide⟩

/-- C4 (code bug): with all four aws credentials set, deploy() returns
undefined rather than a promise — its build chain is started without a
return — even though the underlying build rejects (here at the compileHtml
guard, the html section being unset); develop() likewise returns undefined
while its build rejects at the compileSass guard. -/
theorem deploy_develop_return_undefined :
    deploy cfgDeployReady = .jsUndefined
    ∧ buildRun emptyFs parseFailOracle 5 cfgDeployReady [] = .error (.configMsg htmlNotSetMsg)
    ∧ develop cfgDevelopReady = .jsUndefined
    ∧ buildRun emptyFs parseFailOracle 5 cfgDevelopReady [] = .error (.configMsg sassNotSetMsg) := by
  exact ⟨by decide, by decide, by decide, by decide⟩

/-- C10: build() rejects with the guard message naming the first unset of
the html, sass and dependencies sections once the stages before it
complete, and build() succeeds only when all three sections were supplied
at construction. -/
theorem build_requires_all_sections (fs : FPath → Option Tmpl)
    (pj : String → Except String (List (String × Value))) (fuel : Nat)
    (cfg : Config) (root : List Entry) :
    ((∀ h, cfg.html = some h → ∃ ws, compileHtml ⟨fs, pj, fuel, h⟩ root = .ok ws) →
      (cfg.html = none ∨ cfg.sass = none ∨ cfg.dependencies = none) →
      buildRun fs pj fuel cfg root = .error (.configMsg (firstUnsetMsg cfg)))
    ∧ (buildRun fs pj fuel cfg root = .ok () →
      cfg.html.isSome ∧ cfg.sass.isSome ∧ cfg.dependencies.isSome) := by
  constructor
  · intro hdone hmiss
    match hh : cfg.html with
    | none => simp [buildRun, hh, firstUnsetMsg]
    | some h =>
      obtain ⟨ws, hws⟩ := hdone h hh
      match hs : cfg.sass with
      | none => simp [buildRun, hh, hws, hs, firstUnsetMsg]
      | some _ =>
        match hd : cfg.dependencies with
        | none => simp [buildRun, hh, hws, hs, hd, firstUnsetMsg]
        | some _ =>
          rcases hmiss with hmiss | hmiss | hmiss <;> simp_all
  · intro hok
    match hh : cfg.html with
    | none => simp [buildRun, hh] at hok
    | some h =>
      match hc : compileHtml ⟨fs, pj, fuel, h⟩ root with
      | .error e => simp [buildRun, hh, hc] at hok
      | .ok ws =>
        match hs : cfg.sass with
        | none => simp [buildRun, hh, hc, hs] at hok
        | some _ =>
          match hd : cfg.dependencies with
          | none => simp [buildRun, hh, hc, hs, hd] at hok
          | some _ => simp [hh, hs, hd]

/-- Closed instance of build_requires_all_sections: html and sass set,
dependencies unset, building an empty source tree. -/
theorem build_requires_all_sections_witness :
    buildRun emptyFs parseFailOracle 5 cfgNoDeps [] = .error (.configMsg depsNotSetMsg) := by
  have h := (build_requires_all_sections emptyFs parseFailOracle 5 cfgNoDeps []).1
    (fun hb hh => ⟨[], by
      have : hb = ⟨["s"], ["b"], none, []⟩ := by
        simpa [cfgNoDeps] using hh.symm
      subst this
      decide⟩)
    (by simp [cfgNoDeps])
  simpa [cfgNoDeps, firstUnsetMsg] using h

/-
Build-directory independence: the walk with build directory b produces
exactly the writes of the walk with an empty build directory, each path
prefixed by b, with identical registry evolution and identical errors.
-/

theorem compilePage_build (fs : FPath → Option Tmpl)
    (pj : String → Except String (List (String × Value))) (fuel : Nat)
    (src b : FPath) (ce : Option (List String)) (deps : Ctx) (rel : FPath)
    (sibs : List Entry) (layout? : Option Tmpl) (name : String) (t : Tmpl) :
    compilePage ⟨fs, pj, fuel, ⟨src, b, ce, deps⟩⟩ rel sibs layout? name t
      = (compilePage ⟨fs, pj, fuel, ⟨src, [], ce, deps⟩⟩ rel sibs layout? name t).map
          (fun w => (b ++ w.1, w.2)) := by
  simp only [compilePage]
  cases hm : loadMetadata pj sibs with
  | error e => simp [Except.map]
  | ok md =>
    cases hr : renderT fs fuel (baseContext deps md) t with
    | error e => simp [hr, Except.map]
    | ok co =>
      cases layout? with
      | none => simp [hr, Except.map]
      | some l =>
        cases ho : renderT fs fuel (layoutContext (baseContext deps md) co) l with
        | error e => simp [hr, ho, Except.map]
        | ok out => simp [hr, ho, Except.map]

theorem processFile_build (fs : FPath → Option Tmpl)
    (pj : String → Except String (List (String × Value))) (fuel : Nat)
    (src b : FPath) (ce : Option (List String)) (deps : Ctx) (rel : FPath)
    (sibs : List Entry) (layout? : Option Tmpl) (name : String) (t : Tmpl) :
    processFile ⟨fs, pj, fuel, ⟨src, b, ce, deps⟩⟩ rel sibs layout? name t
      = (processFile ⟨fs, pj, fuel, ⟨src, [], ce, deps⟩⟩ rel sibs layout? name t).map
          (List.map (fun w => (b ++ w.1, w.2))) := by
  simp only [processFile]
  by_cases hext : extname name = ".html"
  · simp only [hext, if_pos]
    rw [compilePage_build]
    cases compilePage ⟨fs, pj, fuel, ⟨src, [], ce, deps⟩⟩ rel sibs layout? name t with
    | error e => simp [Except.map]
    | ok w =>
      cases ce with
      | none => simp [Except.map]
      | some exts =>
        simp only [Except.map]
        split <;> simp
  · simp only [hext, if_neg, not_false_iff]
    cases ce with
    | none => simp [Except.map]
    | some exts =>
      simp only [Except.map]
      split <;> simp

mutual

theorem walkEntry_build (fs : FPath → Option Tmpl)
    (pj : String → Except String (List (String × Value))) (fuel : Nat)
    (src b : FPath) (ce : Option (List String)) (deps : Ctx) (rel : FPath)
    (sibs : List Entry) (layout? : Option Tmpl) (c : Entry) (reg : Registry) :
    walkEntry ⟨fs, pj, fuel, ⟨src, b, ce, deps⟩⟩ rel sibs layout? c reg
      = (walkEntry ⟨fs, pj, fuel, ⟨src, [], ce, deps⟩⟩ rel sibs layout? c reg).map
          (fun p => (p.1, p.2.map (fun w => (b ++ w.1, w.2)))) := by
  cases c with
  | file name t =>
    simp only [walkEntry]
    rw [processFile_build]
    cases processFile ⟨fs, pj, fuel, ⟨src, [], ce, deps⟩⟩ rel sibs layout? name t <;> simp [Except.map]
  | dir name cs =>
    simp only [walkEntry]
    have h := walkChildren_build fs pj fuel src b ce deps (rel ++ [name]) cs
      (selectTemplate (registerLayouts (src ++ (rel ++ [name])) cs reg)
        (src ++ (rel ++ [name])))
      cs (registerLayouts (src ++ (rel ++ [name])) cs reg) []
    simpa using h
termination_by sizeOf c

theorem walkChildren_build (fs : FPath → Option Tmpl)
    (pj : String → Except String (List (String × Value))) (fuel : Nat)
    (src b : FPath) (ce : Option (List String)) (deps : Ctx) (rel : FPath)
    (sibs : List Entry) (layout? : Option Tmpl) (rest : List Entry) (reg : Registry)
    (acc : List (FPath × String)) :
    walkChildren ⟨fs, pj, fuel, ⟨src, b, ce, deps⟩⟩ rel sibs layout? rest reg
        (acc.map (fun w => (b ++ w.1, w.2)))
      = (walkChildren ⟨fs, pj, fuel, ⟨src, [], ce, deps⟩⟩ rel sibs layout? rest reg acc).map
          (fun p => (p.1, p.2.map (fun w => (b ++ w.1, w.2)))) := by
  cases rest with
  | nil => simp [walkChildren, Except.map]
  | cons c rest' =>
    simp only [walkChildren]
    rw [walkEntry_build]
    cases h : walkEntry ⟨fs, pj, fuel, ⟨src, [], ce, deps⟩⟩ rel sibs layout? c reg with
    | error e => simp [Except.map]
    | ok p =>
      obtain ⟨reg', ws⟩ := p
      have h2 := walkChildren_build fs pj fuel src b ce deps rel sibs layout? rest' reg'
        (acc ++ ws)
      simp only [Except.map, List.map_append] at h2 ⊢
      exact h2
termination_by sizeOf rest

end

theorem compileHtml_build (fs : FPath → Option Tmpl)
    (pj : String → Except String (List (String × Value))) (fuel : Nat)
    (src b : FPath) (ce : Option (List String)) (deps : Ctx) (root : List Entry) :
    compileHtml ⟨fs, pj, fuel, ⟨src, b, ce, deps⟩⟩ root
      = (compileHtml ⟨fs, pj, fuel, ⟨src, [], ce, deps⟩⟩ root).map
          (List.map (fun w => (b ++ w.1, w.2))) := by
  simp only [compileHtml, recurseDir]
  have h := walkChildren_build fs pj fuel src b ce deps [] root
    (selectTemplate (registerLayouts (src ++ ([] : FPath)) root []) (src ++ ([] : FPath)))
    root (registerLayouts (src ++ ([] : FPath)) root []) []
  simp only [List.map_nil] at h
  rw [h]
  cases walkChildren ⟨fs, pj, fuel, ⟨src, [], ce, deps⟩⟩ [] root
    (selectTemplate (registerLayouts (src ++ ([] : FPath)) root []) (src ++ ([] : FPath)))
    root (registerLayouts (src ++ ([] : FPath)) root []) [] with
  | error e => simp [Except.map]
  | ok p => simp [Except.map]

/-- C8: HTML compilation is deterministic across build targets: for a
fixed source tree, filesystem, parse oracle, fuel and configuration that
differ only in the build directory, the two runs produce the same writes
relative to their build roots — byte-identical outputs at mirrored
paths (and identical rejection otherwise). -/
theorem compileHtml_deterministic_across_targets (fs : FPath → Option Tmpl)
    (pj : String → Except String (List (String × Value))) (fuel : Nat)
    (src b1 b2 : FPath) (ce : Option (List String)) (deps : Ctx) (root : List Entry) :
    (compileHtml ⟨fs, pj, fuel, ⟨src, b1, ce, deps⟩⟩ root).map
        (List.map (fun w => (w.1.drop b1.length, w.2)))
      = (compileHtml ⟨fs, pj, fuel, ⟨src, b2, ce, deps⟩⟩ root).map
          (List.map (fun w => (w.1.drop b2.length, w.2))) := by
  rw [compileHtml_build fs pj fuel src b1 ce deps root,
    compileHtml_build fs pj fuel src b2 ce deps root]
  cases compileHtml ⟨fs, pj, fuel, ⟨src, [], ce, deps⟩⟩ root with
  | error e => simp [Except.map]
  | ok ws =>
    simp only [Except.map, List.map_map]
    congr 1
    apply List.map_congr_left
    intro w _
    simp [List.drop_left]

/-
Prefix, tree and registry lemmas for the layout-resolution refinement.
-/

theorem contains_false_iff {l : List String} {a : String} :
    l.contains a = false ↔ a ∉ l := by
  constructor
  · intro h hm
    rw [show l.contains a = List.elem a l from rfl, (List.elem_iff).mpr hm] at h
    cases h
  · intro h
    cases hc : l.contains a with
    | false => rfl
    | true =>
      rw [show l.contains a = List.elem a l from rfl] at hc
      exact absurd ((List.elem_iff).mp hc) h

theorem isPfx_iff {a b : FPath} : isPfx a b = true ↔ ∃ t, b = a ++ t := by
  induction a generalizing b with
  | nil => simp [isPfx]
  | cons x xs ih =>
    cases b with
    | nil =>
      simp [isPfx]
    | cons y ys =>
      simp only [isPfx, List.cons_append]
      by_cases hxy : x = y
      · subst hxy
        rw [if_pos rfl, ih]
        constructor
        · rintro ⟨t, ht⟩
          exact ⟨t, by rw [ht]⟩
        · rintro ⟨t, ht⟩
          obtain ⟨-, h2⟩ := List.cons.inj ht
          exact ⟨t, h2⟩
      · rw [if_neg hxy]
        constructor
        · intro h
          exact absurd h (by simp)
        · rintro ⟨t, ht⟩
          obtain ⟨h1, -⟩ := List.cons.inj ht
          exact absurd h1.symm hxy

theorem isPfx_refl (l : FPath) : isPfx l l = true :=
  isPfx_iff.mpr ⟨[], by simp⟩

theorem isPfx_append_right (l t : FPath) : isPfx l (l ++ t) = true :=
  isPfx_iff.mpr ⟨t, rfl⟩

theorem isPfx_snoc {r rel : FPath} {c : String} (h : isPfx r (rel ++ [c]) = true) :
    isPfx r rel = true ∨ r = rel ++ [c] := by
  obtain ⟨t, ht⟩ := isPfx_iff.mp h
  rcases List.eq_nil_or_concat t with rfl | ⟨t', a, rfl⟩
  · right
    simpa using ht.symm
  · left
    refine isPfx_iff.mpr ⟨t', ?_⟩
    rw [List.concat_eq_append] at ht
    have h2 : rel ++ [c] = (r ++ t') ++ [a] := by
      rw [ht, List.append_assoc]
    exact List.append_inj_left' h2 (by simp)

theorem isPfx_trans {a b c : FPath} (h1 : isPfx a b = true) (h2 : isPfx b c = true) :
    isPfx a c = true := by
  obtain ⟨t1, ht1⟩ := isPfx_iff.mp h1
  obtain ⟨t2, ht2⟩ := isPfx_iff.mp h2
  exact isPfx_iff.mpr ⟨t1 ++ t2, by simp [ht2, ht1, List.append_assoc]⟩

theorem isPfx_dropLast {l : FPath} (h : l ≠ []) : isPfx l.dropLast l = true := by
  refine isPfx_iff.mpr ⟨[l.getLast h], ?_⟩
  exact (List.dropLast_append_getLast h).symm

theorem namesOf_append (a b : List Entry) :
    namesOf (a ++ b) = namesOf a ++ namesOf b := by
  induction a with
  | nil => simp [namesOf]
  | cons c rest ih => simp [namesOf, ih]

theorem names_mem_of_mem {l : List Entry} {c : Entry} (h : c ∈ l) :
    entryName c ∈ namesOf l := by
  induction l with
  | nil => cases h
  | cons c' rest ih =>
    rcases List.mem_cons.mp h with h1 | h1
    · subst h1; exact List.mem_cons_self _ _
    · exact List.mem_cons_of_mem _ (ih h1)

theorem findDirE_none {l : List Entry} {c : String}
    (h : c ∉ namesOf l) : findDirE l c = none := by
  induction l with
  | nil => rfl
  | cons c' rest ih =>
    simp only [namesOf, List.mem_cons, not_or] at h
    cases c' with
    | file n t => exact ih h.2
    | dir n cs =>
      have : n ≠ c := fun he => h.1 (by simp [entryName, he])
      simp [findDirE, this, ih h.2]

theorem nodupTree_parts {c : Entry} {rest : List Entry}
    (h : nodupTree (c :: rest) = true) :
    entryName c ∉ namesOf rest
    ∧ nodupEntry c = true ∧ nodupTree rest = true := by
  simp only [nodupTree, Bool.and_eq_true, Bool.not_eq_true'] at h
  exact ⟨contains_false_iff.mp h.1.1, h.1.2, h.2⟩

theorem nodup_sub {l : List Entry} {n : String} {cs : List Entry}
    (hl : nodupTree l = true) (hm : Entry.dir n cs ∈ l) : nodupTree cs = true := by
  induction l with
  | nil => cases hm
  | cons c rest ih =>
    obtain ⟨-, hc, hrest⟩ := nodupTree_parts hl
    rcases List.mem_cons.mp hm with h1 | h1
    · subst h1; simpa [nodupEntry] using hc
    · exact ih hrest h1

theorem findDirE_mem {l : List Entry} {a : String} {cs : List Entry}
    (h : findDirE l a = some cs) : Entry.dir a cs ∈ l := by
  induction l with
  | nil => cases h
  | cons c rest ih =>
    cases c with
    | file n t =>
      simp only [findDirE] at h
      exact List.mem_cons_of_mem _ (ih h)
    | dir n cs' =>
      by_cases hna : n = a
      · subst hna
        simp only [findDirE, if_pos rfl] at h
        cases h
        exact List.mem_cons_self _ _
      · simp only [findDirE, if_neg hna] at h
        exact List.mem_cons_of_mem _ (ih h)

theorem findDirE_of_dir_mem_nodup {l : List Entry} {n : String} {cs : List Entry}
    (hl : nodupTree l = true) (hm : Entry.dir n cs ∈ l) : findDirE l n = some cs := by
  induction l with
  | nil => cases hm
  | cons c rest ih =>
    obtain ⟨hn, -, hrest⟩ := nodupTree_parts hl
    rcases List.mem_cons.mp hm with h1 | h1
    · subst h1; simp [findDirE]
    · have hne : entryName c ≠ n := by
        intro he
        rw [he] at hn
        exact hn (names_mem_of_mem h1)
      cases c with
      | file n' t =>
        simp only [findDirE]
        exact ih hrest h1
      | dir n' cs' =>
        simp only [entryName] at hne
        simp [findDirE, hne, ih hrest h1]

theorem findDirE_of_file_mem_nodup {l : List Entry} {n : String} {t : Tmpl}
    (hl : nodupTree l = true) (hm : Entry.file n t ∈ l) : findDirE l n = none := by
  induction l with
  | nil => cases hm
  | cons c rest ih =>
    obtain ⟨hn, -, hrest⟩ := nodupTree_parts hl
    rcases List.mem_cons.mp hm with h1 | h1
    · subst h1
      simp only [entryName] at hn
      simp only [findDirE]
      exact findDirE_none hn
    · have hne : entryName c ≠ n := by
        intro he
        rw [he] at hn
        exact hn (names_mem_of_mem h1)
      cases c with
      | file n' t' =>
        simp only [findDirE]
        exact ih hrest h1
      | dir n' cs' =>
        simp only [entryName] at hne
        simp [findDirE, hne, ih hrest h1]

theorem treeAt_trans {root s : List Entry} {r1 : FPath} (h : treeAt root r1 = some s) :
    ∀ r2 : FPath, treeAt root (r1 ++ r2) = treeAt s r2 := by
  induction r1 generalizing root with
  | nil =>
    intro r2
    simp only [treeAt] at h
    cases h
    rfl
  | cons a as ih =>
    intro r2
    simp only [treeAt] at h ⊢
    cases hf : findDirE root a with
    | none => rw [hf] at h; cases h
    | some cs =>
      rw [hf] at h
      exact ih h r2

theorem nodup_treeAt {root s : List Entry} {rel : FPath}
    (hnd : nodupTree root = true) (h : treeAt root rel = some s) :
    nodupTree s = true := by
  induction rel generalizing root with
  | nil => simp only [treeAt] at h; cases h; exact hnd
  | cons a as ih =>
    simp only [treeAt] at h
    cases hf : findDirE root a with
    | none => rw [hf] at h; cases h
    | some cs =>
      rw [hf] at h
      exact ih (nodup_sub hnd (findDirE_mem hf)) h

theorem layoutAtRel_of_treeAt {root sibs : List Entry} {rel : FPath}
    (h : treeAt root rel = some sibs) : layoutAtRel root rel = findLayout sibs := by
  simp [layoutAtRel, h]

theorem layoutAtRel_deep_none {root sibs : List Entry} {rel : FPath} {c : String}
    (h : treeAt root rel = some sibs) (hf : findDirE sibs c = none) (r2 : FPath) :
    layoutAtRel root (rel ++ c :: r2) = none := by
  simp [layoutAtRel, treeAt_trans h, treeAt, hf]

theorem regLookup_register_self {key : FPath} {children : List Entry} {reg : Registry}
    {t : Tmpl} (h : findLayout children = some t) :
    regLookup (registerLayouts key children reg) key = some t := by
  simp [registerLayouts, h, regLookup]

theorem register_none {key : FPath} {children : List Entry} {reg : Registry}
    (h : findLayout children = none) : registerLayouts key children reg = reg := by
  simp [registerLayouts, h]

theorem regLookup_register_other {key q : FPath} {children : List Entry} {reg : Registry}
    (h : q ≠ key) :
    regLookup (registerLayouts key children reg) q = regLookup reg q := by
  cases hf : findLayout children with
  | none => simp [registerLayouts, hf]
  | some t =>
    simp only [registerLayouts, hf, regLookup]
    rw [if_neg (Ne.symm h)]

theorem selectTemplate_nil (reg : Registry) : selectTemplate reg [] = none := rfl

theorem selectTemplate_cons (reg : Registry) {p : FPath} (h : p ≠ []) :
    selectTemplate reg p = match regLookup reg p with
      | some t => some t
      | none => selectTemplate reg p.dropLast := by
  cases hr : p.reverse with
  | nil => exact absurd (List.reverse_eq_nil_iff.mp hr) h
  | cons a as =>
    have hp : p = as.reverse ++ [a] := by
      have := congrArg List.reverse hr
      simpa using this
    have hdrop : p.dropLast = as.reverse := by
      rw [hp]; exact List.dropLast_concat
    simp only [selectTemplate, hr, selectRev]
    have hrev : (a :: as).reverse = p := by
      rw [hp]; simp
    rw [hrev, hdrop]
    simp

theorem specNearest_nil (root : List Entry) :
    specNearest root [] = layoutAtRel root [] := rfl

theorem specNearest_cons (root : List Entry) {rel : FPath} (h : rel ≠ []) :
    specNearest root rel = match layoutAtRel root rel with
      | some t => some t
      | none => specNearest root rel.dropLast := by
  cases hr : rel.reverse with
  | nil => exact absurd (List.reverse_eq_nil_iff.mp hr) h
  | cons a as =>
    have hp : rel = as.reverse ++ [a] := by
      have := congrArg List.reverse hr
      simpa using this
    have hdrop : rel.dropLast = as.reverse := by
      rw [hp]; exact List.dropLast_concat
    simp only [specNearest, hr, specNearRev]
    have hrev : (a :: as).reverse = rel := by
      rw [hp]; simp
    rw [hrev, hdrop]
    simp

theorem selectTemplate_below {src : FPath} {reg : Registry}
    (hshape : ∀ q : FPath, (∀ r : FPath, q ≠ src ++ r) → regLookup reg q = none) :
    ∀ p : FPath, p.length < src.length → selectTemplate reg p = none
  | [], _ => selectTemplate_nil reg
  | a :: as, hp => by
    rw [selectTemplate_cons reg (by simp)]
    have hq : regLookup reg (a :: as) = none := by
      refine hshape (a :: as) (fun r he => ?_)
      have : (a :: as).length = (src ++ r).length := by rw [he]
      simp only [List.length_append] at this
      omega
    rw [hq]
    have hlt : (a :: as).dropLast.length < src.length := by
      have h1 : (a :: as).dropLast.length = (a :: as).length - 1 := List.length_dropLast _
      simp only [List.length_cons] at hp h1
      omega
    exact selectTemplate_below hshape (a :: as).dropLast hlt
termination_by p => p.length
decreasing_by simp [List.length_dropLast]

theorem selectTemplate_eq_specNearest {src : FPath} (hsrc : src ≠ [])
    {root : List Entry} {reg : Registry} :
    ∀ rel : FPath,
    (∀ r : FPath, isPfx r rel = true → regLookup reg (src ++ r) = layoutAtRel root r) →
    (∀ q : FPath, (∀ r : FPath, q ≠ src ++ r) → regLookup reg q = none) →
    selectTemplate reg (src ++ rel) = specNearest root rel
  | [], ha, hshape => by
    rw [specNearest_nil]
    have hsa : regLookup reg src = layoutAtRel root [] := by
      have := ha [] (isPfx_refl [])
      simpa using this
    rw [show src ++ ([] : FPath) = src from by simp]
    rw [selectTemplate_cons reg hsrc, hsa]
    cases layoutAtRel root [] with
    | some t => rfl
    | none =>
      exact selectTemplate_below hshape src.dropLast
        (by
          cases src with
          | nil => exact absurd rfl hsrc
          | cons x xs => simp [List.length_dropLast])
  | a :: as, ha, hshape => by
    have hne : src ++ a :: as ≠ [] := by simp
    rw [selectTemplate_cons reg hne, specNearest_cons root (by simp)]
    rw [ha (a :: as) (isPfx_refl _)]
    cases layoutAtRel root (a :: as) with
    | some t => rfl
    | none =>
      rw [List.dropLast_append_of_ne_nil src (by simp)]
      refine selectTemplate_eq_specNearest hsrc (a :: as).dropLast (fun r hr => ?_) hshape
      exact ha r (isPfx_trans hr (isPfx_dropLast (by simp)))
termination_by rel => rel.length
decreasing_by simp [List.length_dropLast]

theorem nodup_suffix {a b : List Entry} (h : nodupTree (a ++ b) = true) :
    nodupTree b = true := by
  induction a with
  | nil => exact h
  | cons c rest ih => exact ih (nodupTree_parts h).2.2

theorem mem_of_suffix_head {sibs done rest : List Entry} {c : Entry}
    (h : sibs = done ++ c :: rest) : c ∈ sibs := by
  subst h
  exact List.mem_append.mpr (Or.inr (List.mem_cons_self _ _))

theorem head_name_notin_rest {sibs done rest : List Entry} {c c' : Entry}
    (hnd : nodupTree sibs = true) (h : sibs = done ++ c :: rest) (hm : c' ∈ rest) :
    entryName c' ≠ entryName c := by
  subst h
  have h2 := nodup_suffix hnd
  obtain ⟨hn, -, -⟩ := nodupTree_parts h2
  intro he
  rw [← he] at hn
  exact hn (names_mem_of_mem hm)

theorem pfx_ne_deep {src rel : FPath} {x : String} {r r2 : FPath}
    (h : isPfx r rel = true) : src ++ r ≠ src ++ (rel ++ x :: r2) := by
  intro he
  have h2 := List.append_cancel_left he
  obtain ⟨t, ht⟩ := isPfx_iff.mp h
  have hlen : rel.length = r.length + t.length := by simp [ht]
  have hlen2 : r.length = rel.length + (r2.length + 1) := by
    rw [h2]
    simp [List.length_append]
  omega

theorem key_ne_deep {src rel : FPath} {x y : String} {r2 r2' : FPath}
    (hxy : x ≠ y) : src ++ (rel ++ x :: r2) ≠ src ++ (rel ++ y :: r2') := by
  intro he
  have h2 := List.append_cancel_left (List.append_cancel_left he)
  exact hxy (List.cons.inj h2).1

theorem names_mem_iff {l : List Entry} {a : String} :
    a ∈ namesOf l ↔ ∃ c ∈ l, entryName c = a := by
  induction l with
  | nil => simp [namesOf]
  | cons c rest ih =>
    simp only [namesOf, List.mem_cons, ih]
    constructor
    · rintro (h | ⟨c', hc', he⟩)
      · exact ⟨c, Or.inl rfl, h.symm⟩
      · exact ⟨c', Or.inr hc', he⟩
    · rintro ⟨c', (rfl | hc'), he⟩
      · exact Or.inl he.symm
      · exact Or.inr ⟨c', hc', he⟩

mutual

theorem refDir (E : Env) (root : List Entry) (hsrc : E.cfg.sourceDirectory ≠ [])
    (hnd : nodupTree root = true) (rel : FPath) (cs : List Entry) (reg : Registry)
    (htree : treeAt root rel = some cs)
    (hanc : ∀ r : FPath, isPfx r rel = true → r ≠ rel →
      regLookup reg (E.cfg.sourceDirectory ++ r) = layoutAtRel root r)
    (hsub : ∀ r : FPath, isPfx rel r = true →
      regLookup reg (E.cfg.sourceDirectory ++ r) = none)
    (hshape : ∀ q : FPath, (∀ r : FPath, q ≠ E.cfg.sourceDirectory ++ r) →
      regLookup reg q = none) :
    (∀ e, recurseDir E rel cs reg = .error e → specDir E root rel cs = .error e)
    ∧ (∀ reg' ws, recurseDir E rel cs reg = .ok (reg', ws) →
        specDir E root rel cs = .ok ws
        ∧ (∀ r : FPath, isPfx rel r = true →
            regLookup reg' (E.cfg.sourceDirectory ++ r) = layoutAtRel root r)
        ∧ (∀ q : FPath, (∀ r : FPath, isPfx rel r = true →
            q ≠ E.cfg.sourceDirectory ++ r) → regLookup reg' q = regLookup reg q)
        ∧ (∀ q : FPath, (∀ r : FPath, q ≠ E.cfg.sourceDirectory ++ r) →
            regLookup reg' q = none)) := by
  have hmidA : ∀ r : FPath, isPfx r rel = true →
      regLookup (registerLayouts (E.cfg.sourceDirectory ++ rel) cs reg)
        (E.cfg.sourceDirectory ++ r) = layoutAtRel root r := by
    intro r hr
    by_cases hre : r = rel
    · subst hre
      cases hfl : findLayout cs with
      | some t =>
        rw [regLookup_register_self hfl, layoutAtRel_of_treeAt htree, hfl]
      | none =>
        rw [register_none hfl, hsub r (isPfx_refl r), layoutAtRel_of_treeAt htree, hfl]
    · rw [regLookup_register_other
        (fun he => hre (List.append_cancel_left he)), hanc r hr hre]
  have hshape1 : ∀ q : FPath, (∀ r : FPath, q ≠ E.cfg.sourceDirectory ++ r) →
      regLookup (registerLayouts (E.cfg.sourceDirectory ++ rel) cs reg) q = none := by
    intro q hq
    rw [regLookup_register_other (hq rel)]
    exact hshape q hq
  have hlay := @selectTemplate_eq_specNearest E.cfg.sourceDirectory hsrc root
    (registerLayouts (E.cfg.sourceDirectory ++ rel) cs reg) rel hmidA hshape1
  have hmidSub : ∀ c ∈ cs, ∀ r2 : FPath,
      regLookup (registerLayouts (E.cfg.sourceDirectory ++ rel) cs reg)
        (E.cfg.sourceDirectory ++ (rel ++ entryName c :: r2)) = none := by
    intro c _ r2
    rw [regLookup_register_other (Ne.symm (pfx_ne_deep (isPfx_refl rel)))]
    exact hsub (rel ++ entryName c :: r2) (isPfx_append_right rel _)
  have hc := refChildren E root hsrc hnd rel cs (specNearest root rel) cs
    (registerLayouts (E.cfg.sourceDirectory ++ rel) cs reg) [] htree ⟨[], rfl⟩
    hmidA hmidSub hshape1
  constructor
  · intro e he
    simp only [recurseDir, hlay] at he
    simp only [specDir]
    exact hc.1 e he
  · intro reg' ws hok
    simp only [recurseDir, hlay] at hok
    obtain ⟨hspec, hdeep, hpres, hshape'⟩ := hc.2 reg' ws hok
    refine ⟨hspec, ?_, ?_, hshape'⟩
    · intro r hr
      by_cases hre : r = rel
      · subst hre
        rw [hpres (E.cfg.sourceDirectory ++ r)
          (fun c hcm r2 => pfx_ne_deep (isPfx_refl r))]
        exact hmidA r (isPfx_refl r)
      · obtain ⟨t, ht⟩ := isPfx_iff.mp hr
        cases t with
        | nil => exact absurd (by simpa using ht) hre
        | cons x r2 =>
          subst ht
          by_cases hx : x ∈ namesOf cs
          · obtain ⟨c, hcm, hce⟩ := names_mem_iff.mp hx
            subst hce
            exact hdeep c hcm r2
          · have hfd : findDirE cs x = none := findDirE_none hx
            rw [hpres (E.cfg.sourceDirectory ++ (rel ++ x :: r2))
              (fun c hcm r2' => key_ne_deep
                (fun he => hx (he ▸ names_mem_iff.mpr ⟨c, hcm, rfl⟩)))]
            rw [regLookup_register_other (Ne.symm (pfx_ne_deep (isPfx_refl rel))),
              hsub (rel ++ x :: r2) (isPfx_append_right rel _),
              layoutAtRel_deep_none htree hfd r2]
    · intro q hq
      rw [hpres q (fun c hcm r2 => hq (rel ++ entryName c :: r2) (isPfx_append_right rel _))]
      exact regLookup_register_other (hq rel (isPfx_refl rel))
termination_by (sizeOf cs, 1)

theorem refChildren (E : Env) (root : List Entry) (hsrc : E.cfg.sourceDirectory ≠ [])
    (hnd : nodupTree root = true) (rel : FPath) (sibs : List Entry) (lay : Option Tmpl)
    (rest : List Entry) (reg : Registry) (acc : List (FPath × String))
    (htree : treeAt root rel = some sibs)
    (hsuf : ∃ done, sibs = done ++ rest)
    (hmidA : ∀ r : FPath, isPfx r rel = true →
      regLookup reg (E.cfg.sourceDirectory ++ r) = layoutAtRel root r)
    (hmidSub : ∀ c ∈ rest, ∀ r2 : FPath,
      regLookup reg (E.cfg.sourceDirectory ++ (rel ++ entryName c :: r2)) = none)
    (hshape : ∀ q : FPath, (∀ r : FPath, q ≠ E.cfg.sourceDirectory ++ r) →
      regLookup reg q = none) :
    (∀ e, walkChildren E rel sibs lay rest reg acc = .error e →
      specWalk E root rel sibs lay rest acc = .error e)
    ∧ (∀ reg' ws, walkChildren E rel sibs lay rest reg acc = .ok (reg', ws) →
        specWalk E root rel sibs lay rest acc = .ok ws
        ∧ (∀ c ∈ rest, ∀ r2 : FPath,
            regLookup reg' (E.cfg.sourceDirectory ++ (rel ++ entryName c :: r2))
              = layoutAtRel root (rel ++ entryName c :: r2))
        ∧ (∀ q : FPath, (∀ c ∈ rest, ∀ r2 : FPath,
            q ≠ E.cfg.sourceDirectory ++ (rel ++ entryName c :: r2)) →
            regLookup reg' q = regLookup reg q)
        ∧ (∀ q : FPath, (∀ r : FPath, q ≠ E.cfg.sourceDirectory ++ r) →
            regLookup reg' q = none)) := by
  cases rest with
  | nil =>
    constructor
    · intro e he
      simp only [walkChildren] at he
      simp at he
    · intro reg' ws hok
      simp only [walkChildren, Except.ok.injEq, Prod.mk.injEq] at hok
      obtain ⟨h1, h2⟩ := hok
      subst h1; subst h2
      refine ⟨rfl, by simp, fun q _ => rfl, hshape⟩
  | cons c rest' =>
    obtain ⟨done, hdone⟩ := hsuf
    have hnds : nodupTree sibs = true := nodup_treeAt hnd htree
    have hmem : c ∈ sibs := mem_of_suffix_head hdone
    have hE := refEntry E root hsrc hnd rel sibs lay c reg htree hmem hmidA
      (hmidSub c (List.mem_cons_self _ _)) hshape
    cases hwe : walkEntry E rel sibs lay c reg with
    | error e =>
      have hse := hE.1 e hwe
      constructor
      · intro e' he'
        simp only [walkChildren, hwe] at he'
        cases he'
        simp only [specWalk, hse]
      · intro reg' ws hok
        simp only [walkChildren, hwe] at hok
        simp at hok
    | ok p =>
      obtain ⟨reg2, ws1⟩ := p
      obtain ⟨hse, hdeepC, hpresC, hshapeC⟩ := hE.2 reg2 ws1 hwe
      have hmidA2 : ∀ r : FPath, isPfx r rel = true →
          regLookup reg2 (E.cfg.sourceDirectory ++ r) = layoutAtRel root r := by
        intro r hr
        rw [hpresC (E.cfg.sourceDirectory ++ r) (fun r2 => pfx_ne_deep hr)]
        exact hmidA r hr
      have hmidSub2 : ∀ c' ∈ rest', ∀ r2 : FPath,
          regLookup reg2 (E.cfg.sourceDirectory ++ (rel ++ entryName c' :: r2)) = none := by
        intro c' hc' r2
        have hne := head_name_notin_rest hnds hdone hc'
        rw [hpresC _ (fun r2' => key_ne_deep hne)]
        exact hmidSub c' (List.mem_cons_of_mem _ hc') r2
      have hrec := refChildren E root hsrc hnd rel sibs lay rest' reg2 (acc ++ ws1)
        htree ⟨done ++ [c], by rw [hdone, List.append_cons]⟩ hmidA2 hmidSub2 hshapeC
      constructor
      · intro e he
        simp only [walkChildren, hwe] at he
        simp only [specWalk, hse]
        exact hrec.1 e he
      · intro reg' ws hok
        simp only [walkChildren, hwe] at hok
        obtain ⟨hspec, hdeepR, hpresR, hshapeR⟩ := hrec.2 reg' ws hok
        refine ⟨by simpa only [specWalk, hse] using hspec, ?_, ?_, hshapeR⟩
        · intro c0 hc0 r2
          rcases List.mem_cons.mp hc0 with rfl | hc0'
          · rw [hpresR _ (fun c' hc' r2' =>
              key_ne_deep (head_name_notin_rest hnds hdone hc').symm)]
            exact hdeepC r2
          · exact hdeepR c0 hc0' r2
        · intro q hq
          rw [hpresR q (fun c' hc' r2 => hq c' (List.mem_cons_of_mem _ hc') r2)]
          exact hpresC q (fun r2 => hq c (List.mem_cons_self _ _) r2)
termination_by (sizeOf rest, 0)

theorem refEntry (E : Env) (root : List Entry) (hsrc : E.cfg.sourceDirectory ≠ [])
    (hnd : nodupTree root = true) (rel : FPath) (sibs : List Entry) (lay : Option Tmpl)
    (c : Entry) (reg : Registry)
    (htree : treeAt root rel = some sibs)
    (hmem : c ∈ sibs)
    (hmidA : ∀ r : FPath, isPfx r rel = true →
      regLookup reg (E.cfg.sourceDirectory ++ r) = layoutAtRel root r)
    (hcsub : ∀ r2 : FPath,
      regLookup reg (E.cfg.sourceDirectory ++ (rel ++ entryName c :: r2)) = none)
    (hshape : ∀ q : FPath, (∀ r : FPath, q ≠ E.cfg.sourceDirectory ++ r) →
      regLookup reg q = none) :
    (∀ e, walkEntry E rel sibs lay c reg = .error e →
      specEntry E root rel sibs lay c = .error e)
    ∧ (∀ reg' ws, walkEntry E rel sibs lay c reg = .ok (reg', ws) →
        specEntry E root rel sibs lay c = .ok ws
        ∧ (∀ r2 : FPath,
            regLookup reg' (E.cfg.sourceDirectory ++ (rel ++ entryName c :: r2))
              = layoutAtRel root (rel ++ entryName c :: r2))
        ∧ (∀ q : FPath, (∀ r2 : FPath,
            q ≠ E.cfg.sourceDirectory ++ (rel ++ entryName c :: r2)) →
            regLookup reg' q = regLookup reg q)
        ∧ (∀ q : FPath, (∀ r : FPath, q ≠ E.cfg.sourceDirectory ++ r) →
            regLookup reg' q = none)) := by
  cases c with
  | file name t =>
    have hnds : nodupTree sibs = true := nodup_treeAt hnd htree
    have hfd : findDirE sibs name = none := findDirE_of_file_mem_nodup hnds hmem
    constructor
    · intro e he
      simp only [walkEntry] at he
      simp only [specEntry]
      cases hpf : processFile E rel sibs lay name t with
      | error e' => rw [hpf] at he; cases he; rfl
      | ok ws' => rw [hpf] at he; cases he
    · intro reg' ws hok
      simp only [walkEntry] at hok
      cases hpf : processFile E rel sibs lay name t with
      | error e' => rw [hpf] at hok; cases hok
      | ok ws' =>
        rw [hpf] at hok
        obtain ⟨h1, h2⟩ := Prod.mk.injEq .. ▸ (Except.ok.inj hok)
        subst h1; subst h2
        refine ⟨by simp only [specEntry]; exact hpf, ?_, fun q _ => rfl, hshape⟩
        intro r2
        rw [hcsub r2]
        simp only [entryName]
        rw [layoutAtRel_deep_none htree hfd r2]
  | dir name cs' =>
    have hnds : nodupTree sibs = true := nodup_treeAt hnd htree
    have hfd : findDirE sibs name = some cs' := findDirE_of_dir_mem_nodup hnds hmem
    have htreeC : treeAt root (rel ++ [name]) = some cs' := by
      rw [treeAt_trans htree [name]]
      simp [treeAt, hfd]
    have hD := refDir E root hsrc hnd (rel ++ [name]) cs' reg htreeC
      (fun r hr hne => by
        rcases isPfx_snoc hr with hr' | hr'
        · exact hmidA r hr'
        · exact absurd hr' hne)
      (fun r hr => by
        obtain ⟨t, ht⟩ := isPfx_iff.mp hr
        rw [ht, List.append_assoc]
        exact hcsub t)
      hshape
    have hwe : ∀ reg0, walkEntry E rel sibs lay (.dir name cs') reg0
        = recurseDir E (rel ++ [name]) cs' reg0 := fun reg0 => rfl
    have hsp : specEntry E root rel sibs lay (.dir name cs')
        = specDir E root (rel ++ [name]) cs' := rfl
    constructor
    · intro e he
      rw [hwe reg] at he
      rw [hsp]
      exact hD.1 e he
    · intro reg' ws hok
      rw [hwe reg] at hok
      obtain ⟨hspec, hdeep, hpres, hshape'⟩ := hD.2 reg' ws hok
      refine ⟨by rw [hsp]; exact hspec, ?_, ?_, hshape'⟩
      · intro r2
        have hkey : rel ++ entryName (Entry.dir name cs') :: r2 = (rel ++ [name]) ++ r2 := by
          simp only [entryName]
          rw [List.append_cons]
        rw [hkey]
        exact hdeep ((rel ++ [name]) ++ r2) (isPfx_append_right _ _)
      · intro q hq
        refine hpres q (fun r hr => ?_)
        obtain ⟨t, ht⟩ := isPfx_iff.mp hr
        rw [ht, List.append_assoc]
        have h5 := hq t
        simp only [entryName] at h5
        rw [List.append_cons, List.append_assoc] at h5
        exact h5
termination_by (sizeOf c, 0)

end

/-- C1: for every well-formed source tree, the walk's lazily built layout
registry resolves exactly the specification's nearest-ancestor layout for
every content file: compileHtml coincides, writes and errors alike, with
the reference compiler driven by the declarative nearest-ancestor
resolution over the whole tree, regardless of the visitation order in
which layouts were discovered. -/
theorem compileHtml_refines_nearest_ancestor (E : Env) (root : List Entry)
    (hsrc : E.cfg.sourceDirectory ≠ []) (hnd : nodupTree root = true) :
    compileHtml E root = specCompileHtml E root := by
  have h := refDir E root hsrc hnd [] root [] rfl
    (fun r hr hne => by
      cases r with
      | nil => exact absurd rfl hne
      | cons a as => simp [isPfx] at hr)
    (fun r _ => rfl)
    (fun q _ => rfl)
  simp only [compileHtml, specCompileHtml]
  cases hrec : recurseDir E [] root [] with
  | error e => rw [h.1 e hrec]
  | ok p =>
    obtain ⟨reg', ws⟩ := p
    rw [(h.2 reg' ws hrec).1]

/-- Closed instance of compileHtml_refines_nearest_ancestor on a tree with
a root layout and a deeper override. -/
theorem compileHtml_refines_nearest_ancestor_witness :
    nodupTree treeNested = true
    ∧ compileHtml envPlain treeNested = specCompileHtml envPlain treeNested := by
  exact ⟨by decide,
    compileHtml_refines_nearest_ancestor envPlain treeNested (by decide) (by decide)⟩

theorem compilePage_ok_layout {E : Env} {rel : FPath} {sibs : List Entry}
    {layout? : Option Tmpl} {name : String} {t : Tmpl} {w : FPath × String}
    (h : compilePage E rel sibs layout? name t = .ok w) : layout?.isSome = true := by
  cases layout? with
  | some l => rfl
  | none =>
    exfalso
    simp only [compilePage] at h
    split at h
    · simp at h
    · split at h
      · simp at h
      · simp at h

theorem processFile_ok_layout {E : Env} {rel : FPath} {sibs : List Entry}
    {layout? : Option Tmpl} {name : String} {t : Tmpl} {ws : List (FPath × String)}
    (hext : extname name = ".html")
    (h : processFile E rel sibs layout? name t = .ok ws) : layout?.isSome = true := by
  simp only [processFile, hext, if_pos] at h
  cases hc : compilePage E rel sibs layout? name t with
  | error e =>
    rw [hc] at h
    simp [Except.map] at h
  | ok w => exact compilePage_ok_layout hc

mutual

theorem specEntryLayouts (E : Env) (root : List Entry) (rel : FPath) (sibs : List Entry)
    (c : Entry) (ws : List (FPath × String))
    (h : specEntry E root rel sibs (specNearest root rel) c = .ok ws) :
    ∀ r ∈ contentDirsE rel c, (specNearest root r).isSome = true := by
  cases c with
  | file name t =>
    intro r hr
    simp only [contentDirsE] at hr
    by_cases hext : extname name = ".html"
    · rw [if_pos hext] at hr
      have hre : r = rel := by simpa using hr
      subst hre
      simp only [specEntry] at h
      exact processFile_ok_layout hext h
    · rw [if_neg hext] at hr
      simp at hr
  | dir name cs =>
    intro r hr
    simp only [contentDirsE] at hr
    simp only [specEntry] at h
    exact specWalkLayouts E root (rel ++ [name]) cs cs [] ws h r hr
termination_by (sizeOf c, 0)

theorem specWalkLayouts (E : Env) (root : List Entry) (rel : FPath) (sibs : List Entry)
    (rest : List Entry) (acc ws : List (FPath × String))
    (h : specWalk E root rel sibs (specNearest root rel) rest acc = .ok ws) :
    ∀ r ∈ contentDirsL rel rest, (specNearest root r).isSome = true := by
  cases rest with
  | nil =>
    intro r hr
    simp [contentDirsL] at hr
  | cons c rest' =>
    intro r hr
    simp only [contentDirsL, List.mem_append] at hr
    simp only [specWalk] at h
    cases hse : specEntry E root rel sibs (specNearest root rel) c with
    | error e => rw [hse] at h; simp at h
    | ok ws1 =>
      rw [hse] at h
      rcases hr with hr | hr
      · exact specEntryLayouts E root rel sibs c ws1 hse r hr
      · exact specWalkLayouts E root rel sibs rest' (acc ++ ws1) ws h r hr
termination_by (sizeOf rest, 0)

end

/-- C2: a well-formed source tree holding a content file with no
layout-template file at its directory or any ancestor up to the source
root makes compileHtml reject the whole build. -/
theorem missing_root_layout_fails_build (E : Env) (root : List Entry)
    (hsrc : E.cfg.sourceDirectory ≠ []) (hnd : nodupTree root = true)
    (hbad : (contentDirsL [] root).any (fun r => (specNearest root r).isNone) = true) :
    isErr (compileHtml E root) = true := by
  obtain ⟨r, hrm, hrn⟩ := List.any_eq_true.mp hbad
  cases hc : compileHtml E root with
  | error e => rfl
  | ok ws =>
    exfalso
    have h := refDir E root hsrc hnd [] root [] rfl
      (fun r' hr' hne => by
        cases r' with
        | nil => exact absurd rfl hne
        | cons a as => simp [isPfx] at hr')
      (fun r' _ => rfl)
      (fun q _ => rfl)
    simp only [compileHtml] at hc
    cases hrec : recurseDir E [] root [] with
    | error e => rw [hrec] at hc; simp at hc
    | ok p =>
      obtain ⟨reg', ws'⟩ := p
      rw [hrec] at hc
      have hs := (h.2 reg' ws' hrec).1
      simp only [specDir] at hs
      have h2 := specWalkLayouts E root [] root root [] ws' hs r hrm
      cases hsn : specNearest root r with
      | none => rw [hsn] at h2; simp at h2
      | some t => rw [hsn] at hrn; simp at hrn

/-- Closed instance of missing_root_layout_fails_build on a tree with a
content file and no layout anywhere. -/
theorem missing_root_layout_fails_build_witness :
    nodupTree treeNoLayout = true
    ∧ (contentDirsL [] treeNoLayout).any
        (fun r => (specNearest treeNoLayout r).isNone) = true
    ∧ isErr (compileHtml envPlain treeNoLayout) = true := by
  exact ⟨by decide, by decide,
    missing_root_layout_fails_build envPlain treeNoLayout (by decide) (by decide) (by decide)⟩
